import Mathlib

/-!
Verification of the StatsD line parser in src/parser.rs of brandur/redis-metrics.

The parser is written with nom 1.x macro combinators. We embed the combinators
actually used (is_not!, tag!, alphanumeric, map_res!, opt!, complete!, chain!,
many1!) with their nom 1.2.4 semantics, which the test suite of the repository
pins down: is_not! and alphanumeric return Done when they reach the end of
input, tag! returns Incomplete when the input is a proper prefix of the tag,
opt! turns an Error (but not an Incomplete) into a successful None, complete!
turns Incomplete into Error, and many1! stops at a failing element, returning
the already parsed elements together with the unconsumed rest.

Modelling conventions:
* Input bytes are modelled as Lean Char lists; every input in the claims is
  ASCII, where the two coincide. The str::from_utf8 conversions in the source
  cannot fail on this domain and are modelled as the identity.
* The f64 value of a sample rate is carried as the accepted literal text
  instead of a floating point number; validF64 models the acceptance
  condition of f64::from_str (the dec2flt grammar). No claim compares
  numeric values of sample rates, only acceptance and rejection.
* statsdLoopN carries a fuel argument so that the many1! loop is structurally
  recursive; statsd supplies the length of the remaining input as fuel, which
  never runs out because every loop iteration consumes at least one character
  (statsdLoopN_fuel_irrelevant makes this precise).
-/

/-- Result of a nom 1.x parser: Done carries the unconsumed rest and the
output, Error is a grammar mismatch, Incomplete means more input was needed. -/
inductive NR (α : Type) where
  | done (rest : List Char) (out : α)
  | error
  | incomplete
deriving DecidableEq

/-- Characters a byte-oriented is_not! set may contain. -/
def notIn (cs : List Char) (c : Char) : Bool := !(cs.contains c)

/-- nom 1.2.4 is_not!: longest run of characters outside cs. Error if the
first character is in cs; Done with the whole input (empty included) when no
character of cs occurs. -/
def isNot (cs : List Char) (s : List Char) : NR (List Char) :=
  match s with
  | [] => .done [] []
  | c :: _ =>
    if cs.contains c then .error
    else .done (s.dropWhile (notIn cs)) (s.takeWhile (notIn cs))

/-- nom 1.2.4 tag!: Done past the tag on a match, Incomplete when the input is
a strict prefix of the tag, Error otherwise. -/
def tagP (w : List Char) (s : List Char) : NR (List Char) :=
  if s.take (min s.length w.length) = w.take (min s.length w.length) then
    if s.length < w.length then .incomplete
    else .done (s.drop w.length) w
  else .error

/-- nom is_alphanumeric on bytes: ASCII 0-9, a-z, A-Z. -/
def isAlnumB (c : Char) : Bool :=
  ('0' ≤ c && c ≤ '9') || ('a' ≤ c && c ≤ 'z') || ('A' ≤ c && c ≤ 'Z')

/-- nom 1.2.4 alphanumeric: longest run of alphanumeric characters. Error if
the first character is not alphanumeric; Done with the whole input (empty
included) when every character is alphanumeric. -/
def alphanumericP (s : List Char) : NR (List Char) :=
  match s with
  | [] => .done [] []
  | c :: _ =>
    if isAlnumB c then .done (s.dropWhile isAlnumB) (s.takeWhile isAlnumB)
    else .error

/-- nom complete!: converts Incomplete into Error. -/
def completeP (r : NR α) : NR α :=
  match r with
  | .incomplete => .error
  | x => x

/-- nom opt!: a failed attempt (Error) becomes Done with None and nothing
consumed; Incomplete propagates. -/
def optP (p : List Char → NR α) (s : List Char) : NR (Option α) :=
  match p s with
  | .done r o => .done r (some o)
  | .error => .done s none
  | .incomplete => .incomplete

/-- Sequencing as performed by chain!: Error and Incomplete propagate. -/
def andThen (r : NR α) (f : List Char → α → NR β) : NR β :=
  match r with
  | .done rest a => f rest a
  | .error => .error
  | .incomplete => .incomplete

/-- Digit test of the f64 literal grammar. -/
def isDigitB (c : Char) : Bool := '0' ≤ c && c ≤ '9'

/-- Exponent tail of the f64 literal grammar: optional sign, then at least
one digit and nothing else. -/
def validExpTail (s : List Char) : Bool :=
  let t := match s with
    | '+' :: r => r
    | '-' :: r => r
    | r => r
  !t.isEmpty && t.all isDigitB

/-- Unsigned part of the f64 literal grammar of f64::from_str (dec2flt):
the special values inf and NaN, or digits with an optional fraction and an
optional exponent, with at least one digit in the mantissa. -/
def validF64Core (s : List Char) : Bool :=
  if s = ['i', 'n', 'f'] || s = ['N', 'a', 'N'] then true
  else
    let intPart := s.takeWhile isDigitB
    match s.dropWhile isDigitB with
    | [] => !intPart.isEmpty
    | '.' :: r2 =>
      let frac := r2.takeWhile isDigitB
      (!intPart.isEmpty || !frac.isEmpty) &&
        (match r2.dropWhile isDigitB with
         | [] => true
         | 'e' :: r3 => validExpTail r3
         | 'E' :: r3 => validExpTail r3
         | _ => false)
    | 'e' :: r2 => !intPart.isEmpty && validExpTail r2
    | 'E' :: r2 => !intPart.isEmpty && validExpTail r2
    | _ => false

/-- Acceptance condition of f64::from_str: optional sign, then the unsigned
grammar, consuming the entire string. -/
def validF64 (s : List Char) : Bool :=
  match s with
  | '+' :: r => validF64Core r
  | '-' :: r => validF64Core r
  | r => validF64Core r

/-- All possible types of a metric (src/parser.rs MetricType). -/
inductive MetricType where
  | Counter
  | Gauge
  | Sample
  | Set
deriving DecidableEq

/-- A single emitted metric (src/parser.rs Metric). The sample rate is carried
as the accepted literal text of the f64. -/
structure Metric where
  name : List Char
  value : List Char
  metric_type : MetricType
  unit : Option (List Char)
  sample_rate : Option (List Char)
deriving DecidableEq

/-- src/parser.rs parse_metric_type: the reserved tokens c, g, s, with every
other token classified as a Sample. -/
def parse_metric_type (s : List Char) : MetricType :=
  if s = ['c'] then .Counter
  else if s = ['g'] then .Gauge
  else if s = ['s'] then .Set
  else .Sample

/-- src/parser.rs parse_unit: None for the reserved tokens, the token itself
otherwise. -/
def parse_unit (s : List Char) : Option (List Char) :=
  if s = ['c'] then none
  else if s = ['g'] then none
  else if s = ['s'] then none
  else some s

/-- src/parser.rs sample_rate: tag!("|@") then the text up to a newline,
accepted when f64::from_str succeeds on it. -/
def sample_rate (s : List Char) : NR (List Char) :=
  andThen (tagP ['|', '@'] s) fun s1 _ =>
    andThen (isNot ['\n'] s1) fun s2 lit =>
      if validF64 lit then .done s2 lit else .error

/-- src/parser.rs statsd_metric: name up to a colon, value up to a pipe, the
alphanumeric type-or-unit token, and an optional complete!(sample_rate). -/
def statsd_metric (s : List Char) : NR Metric :=
  andThen (isNot [':'] s) fun s1 name =>
    andThen (tagP [':'] s1) fun s2 _ =>
      andThen (isNot ['|'] s2) fun s3 value =>
        andThen (tagP ['|'] s3) fun s4 _ =>
          andThen (alphanumericP s4) fun s5 tou =>
            andThen (optP (fun u => completeP (sample_rate u)) s5) fun s6 rate =>
              .done s6
                { name := name
                  value := value
                  metric_type := parse_metric_type tou
                  unit := parse_unit tou
                  sample_rate := rate }

/-- One element of the many1! in statsd: a metric followed by an optional
complete!(tag!("\n")). -/
def statsdElem (s : List Char) : NR Metric :=
  andThen (statsd_metric s) fun r m =>
    andThen (optP (fun u => completeP (tagP ['\n'] u)) r) fun r2 _ =>
      .done r2 m

/-- The loop of nom 1.2.4 many1! after its first element: stop with the
collected elements when the input is empty, when an element fails with Error,
or when an element consumes nothing; propagate Incomplete. The fuel argument
only makes the recursion structural; statsd supplies enough of it. -/
def statsdLoopN : Nat → List Char → List Metric → NR (List Metric)
  | _, [], acc => .done [] acc
  | 0, c :: input, acc => .done (c :: input) acc
  | Nat.succ fuel, c :: input, acc =>
    match statsdElem (c :: input) with
    | .error => .done (c :: input) acc
    | .incomplete => .incomplete
    | .done i o =>
      if i.length = (c :: input).length then .done (c :: input) acc
      else statsdLoopN fuel i (acc ++ [o])

/-- src/parser.rs statsd: many1! of statsdElem with nom 1.2.4 semantics. A
first element failing with Error fails the call; a first element returning
Incomplete propagates; afterwards the loop collects elements until the input
is empty or an element fails. -/
def statsd (s : List Char) : NR (List Metric) :=
  match statsdElem s with
  | .error => .error
  | .incomplete => .incomplete
  | .done i1 o1 => if i1 = [] then .done [] [o1] else statsdLoopN i1.length i1 [o1]

/-- Repeatedly running one many1! element from the front of the input:
ElemTrace s r ms holds when the element parser, started on s, produces the
metrics ms one after another in this order and stops exactly at r. -/
inductive ElemTrace : List Char → List Char → List Metric → Prop where
  | nil (r : List Char) : ElemTrace r r []
  | cons {s s' r : List Char} {m : Metric} {ms : List Metric}
      (h : statsdElem s = .done s' m) (ht : ElemTrace s' r ms) :
      ElemTrace s r (m :: ms)

/-! Basic facts about takeWhile and dropWhile used to reason about the
is_not! and alphanumeric combinators. -/

theorem dropWhile_head_false {p : Char → Bool} :
    ∀ {l : List Char} {d : Char} {r' : List Char},
      l.dropWhile p = d :: r' → p d = false := by
  intro l
  induction l with
  | nil => intro d r' h; cases h
  | cons a l ih =>
    intro d r' h
    rw [List.dropWhile_cons] at h
    by_cases ha : p a = true
    · rw [if_pos ha] at h
      exact ih h
    · rw [if_neg ha] at h
      cases h
      exact Bool.not_eq_true _ ▸ Bool.of_not_eq_true ha

theorem takeWhile_all {p : Char → Bool} :
    ∀ {s : List Char}, (∀ c ∈ s, p c = true) →
      s.takeWhile p = s ∧ s.dropWhile p = []
  | [], _ => ⟨rfl, rfl⟩
  | a :: s, h => by
    have ha : p a = true := h a (by simp)
    have ih := takeWhile_all (s := s) (fun c hc => h c (by simp [hc]))
    rw [List.takeWhile_cons, List.dropWhile_cons, if_pos ha, if_pos ha, ih.1, ih.2]
    exact ⟨rfl, rfl⟩

theorem takeWhile_append_stop {p : Char → Bool} {d : Char} (hd : p d = false) :
    ∀ (s : List Char) (u : List Char),
      ((s ++ d :: u).takeWhile p = s.takeWhile p) ∧
      ((s ++ d :: u).dropWhile p = s.dropWhile p ++ d :: u) := by
  intro s u
  induction s with
  | nil =>
    have hd' : ¬ (p d = true) := by simp [hd]
    constructor
    · show (d :: u).takeWhile p = ([] : List Char).takeWhile p
      rw [List.takeWhile_cons, if_neg hd']
      rfl
    · show (d :: u).dropWhile p = ([] : List Char).dropWhile p ++ d :: u
      rw [List.dropWhile_cons, if_neg hd']
      rfl
  | cons a s ih =>
    by_cases ha : p a = true
    · constructor
      · rw [List.cons_append, List.takeWhile_cons, List.takeWhile_cons,
          if_pos ha, if_pos ha, ih.1]
      · rw [List.cons_append, List.dropWhile_cons, List.dropWhile_cons,
          if_pos ha, if_pos ha, ih.2]
    · constructor
      · rw [List.cons_append, List.takeWhile_cons, List.takeWhile_cons,
          if_neg ha, if_neg ha]
      · rw [List.cons_append, List.dropWhile_cons, List.dropWhile_cons,
          if_neg ha, if_neg ha, List.cons_append]

/-! Characterization and append lemmas for the embedded combinators. -/

theorem isNot_done_inv {cs s r o : List Char} (h : isNot cs s = .done r o) :
    s = o ++ r ∧ (∀ c ∈ o, cs.contains c = false) ∧
      (∀ d r', r = d :: r' → cs.contains d = true) := by
  cases s with
  | nil =>
    simp only [isNot] at h
    cases h
    exact ⟨rfl, by simp, by intro d r' h; cases h⟩
  | cons c s' =>
    simp only [isNot] at h
    by_cases hc : cs.contains c = true
    · rw [if_pos hc] at h
      exact absurd h (by simp)
    · rw [if_neg hc] at h
      cases h
      refine ⟨(List.takeWhile_append_dropWhile _ _).symm, ?_, ?_⟩
      · intro x hx
        have hx' := List.mem_takeWhile_imp hx
        simp only [notIn, Bool.not_eq_true'] at hx'
        exact hx'
      · intro d r' hdr
        have hfd : notIn cs d = false := dropWhile_head_false hdr
        simp only [notIn, Bool.not_eq_false'] at hfd
        exact hfd

theorem isNot_sep {cs : List Char} {pre : List Char} {d : Char} (rest : List Char)
    (hne : pre ≠ []) (hpre : ∀ c ∈ pre, cs.contains c = false)
    (hd : cs.contains d = true) :
    isNot cs (pre ++ d :: rest) = .done (d :: rest) pre := by
  have hstop : notIn cs d = false := by simp only [notIn]; rw [hd]; rfl
  have hall : ∀ c ∈ pre, notIn cs c = true := fun c hc => by
    simp only [notIn]; rw [hpre c hc]; rfl
  obtain ⟨a, pre', rfl⟩ : ∃ a pre', pre = a :: pre' := by
    cases pre with
    | nil => exact absurd rfl hne
    | cons a pre' => exact ⟨a, pre', rfl⟩
  have ha : ¬ (cs.contains a = true) := by
    rw [hpre a (by simp)]; exact Bool.false_ne_true
  have hTW := (takeWhile_append_stop hstop (a :: pre') rest).1
  have hDW := (takeWhile_append_stop hstop (a :: pre') rest).2
  have hTA := takeWhile_all hall
  rw [List.cons_append]
  simp only [isNot]
  rw [if_neg ha, ← List.cons_append, hTW, hDW, hTA.1, hTA.2]
  rfl

theorem isNot_all {cs : List Char} {s : List Char}
    (h : ∀ c ∈ s, cs.contains c = false) : isNot cs s = .done [] s := by
  cases s with
  | nil => rfl
  | cons a s' =>
    have hall : ∀ c ∈ a :: s', notIn cs c = true := fun c hc => by
      simp only [notIn]; rw [h c hc]; rfl
    have hTA := takeWhile_all hall
    simp only [isNot]
    rw [if_neg (by rw [h a (by simp)]; exact Bool.false_ne_true), hTA.1, hTA.2]

theorem isNot_append_of_rest_ne {cs s r o : List Char} (h : isNot cs s = .done r o)
    (hr : r ≠ []) (t : List Char) : isNot cs (s ++ t) = .done (r ++ t) o := by
  obtain ⟨h1, h2, h3⟩ := isNot_done_inv h
  obtain ⟨d, r', rfl⟩ : ∃ d r', r = d :: r' := by
    cases r with
    | nil => exact absurd rfl hr
    | cons d r' => exact ⟨d, r', rfl⟩
  have hd := h3 d r' rfl
  have ho : o ≠ [] := by
    intro ho
    subst ho
    rw [List.nil_append] at h1
    subst h1
    simp only [isNot] at h
    rw [if_pos hd] at h
    exact absurd h (by simp)
  subst h1
  rw [List.append_assoc, List.cons_append]
  exact isNot_sep (r' ++ t) ho h2 hd

theorem isNot_eof_append {cs s o : List Char} (h : isNot cs s = .done [] o)
    {d : Char} (ho : o ≠ []) (hd : cs.contains d = true) (u : List Char) :
    isNot cs (s ++ d :: u) = .done (d :: u) o := by
  obtain ⟨h1, h2, -⟩ := isNot_done_inv h
  rw [List.append_nil] at h1
  subst h1
  exact isNot_sep u ho h2 hd

theorem tagP_eq_done {w s r o : List Char} (h : tagP w s = .done r o) :
    o = w ∧ s = w ++ r := by
  simp only [tagP] at h
  by_cases hm : s.take (min s.length w.length) = w.take (min s.length w.length)
  · rw [if_pos hm] at h
    by_cases hl : s.length < w.length
    · rw [if_pos hl] at h
      exact absurd h (by simp)
    · rw [if_neg hl] at h
      cases h
      have hmin : min s.length w.length = w.length := Nat.min_eq_right (Nat.le_of_not_lt hl)
      rw [hmin, List.take_length] at hm
      refine ⟨rfl, ?_⟩
      conv_lhs => rw [← List.take_append_drop w.length s]
      rw [hm]
  · rw [if_neg hm] at h
    exact absurd h (by simp)

theorem tagP_prepend (w r : List Char) : tagP w (w ++ r) = .done r w := by
  have hle : w.length ≤ w.length + r.length := Nat.le_add_right _ _
  have hmin : min (w ++ r).length w.length = w.length := by
    rw [List.length_append]
    exact Nat.min_eq_right hle
  simp only [tagP]
  rw [hmin, List.take_length, List.take_left, if_pos rfl,
    if_neg (by rw [List.length_append]; omega), List.drop_left]

theorem tagP_append {w s r o : List Char} (h : tagP w s = .done r o) (t : List Char) :
    tagP w (s ++ t) = .done (r ++ t) o := by
  obtain ⟨rfl, rfl⟩ := tagP_eq_done h
  rw [List.append_assoc]
  exact tagP_prepend o (r ++ t)

theorem alphanumericP_done_inv {s r o : List Char} (h : alphanumericP s = .done r o) :
    s = o ++ r ∧ (∀ c ∈ o, isAlnumB c = true) ∧
      (∀ d r', r = d :: r' → isAlnumB d = false) := by
  cases s with
  | nil =>
    simp only [alphanumericP] at h
    cases h
    exact ⟨rfl, by simp, by intro d r' h; cases h⟩
  | cons c s' =>
    simp only [alphanumericP] at h
    by_cases hc : isAlnumB c = true
    · rw [if_pos hc] at h
      cases h
      exact ⟨(List.takeWhile_append_dropWhile _ _).symm,
        fun x hx => List.mem_takeWhile_imp hx,
        fun d r' hdr => dropWhile_head_false hdr⟩
    · rw [if_neg hc] at h
      exact absurd h (by simp)

theorem alphanumericP_stop {tok : List Char} {d : Char} (rest : List Char)
    (hne : tok ≠ []) (htok : ∀ c ∈ tok, isAlnumB c = true)
    (hd : isAlnumB d = false) :
    alphanumericP (tok ++ d :: rest) = .done (d :: rest) tok := by
  obtain ⟨a, tok', rfl⟩ : ∃ a tok', tok = a :: tok' := by
    cases tok with
    | nil => exact absurd rfl hne
    | cons a tok' => exact ⟨a, tok', rfl⟩
  have ha : isAlnumB a = true := htok a (by simp)
  have hTW := (takeWhile_append_stop hd (a :: tok') rest).1
  have hDW := (takeWhile_append_stop hd (a :: tok') rest).2
  have hTA := takeWhile_all htok
  rw [List.cons_append]
  simp only [alphanumericP]
  rw [if_pos ha, ← List.cons_append, hTW, hDW, hTA.1, hTA.2]
  rfl

theorem alphanumericP_all {s : List Char}
    (h : ∀ c ∈ s, isAlnumB c = true) : alphanumericP s = .done [] s := by
  cases s with
  | nil => rfl
  | cons a s' =>
    have hTA := takeWhile_all h
    simp only [alphanumericP]
    rw [if_pos (h a (by simp)), hTA.1, hTA.2]

theorem alphanumericP_append_of_rest_ne {s r o : List Char}
    (h : alphanumericP s = .done r o) (hr : r ≠ []) (t : List Char) :
    alphanumericP (s ++ t) = .done (r ++ t) o := by
  obtain ⟨h1, h2, h3⟩ := alphanumericP_done_inv h
  obtain ⟨d, r', rfl⟩ : ∃ d r', r = d :: r' := by
    cases r with
    | nil => exact absurd rfl hr
    | cons d r' => exact ⟨d, r', rfl⟩
  have hd := h3 d r' rfl
  have ho : o ≠ [] := by
    intro ho
    subst ho
    rw [List.nil_append] at h1
    subst h1
    simp only [alphanumericP] at h
    rw [if_neg (by simp [hd])] at h
    exact absurd h (by simp)
  subst h1
  rw [List.append_assoc, List.cons_append]
  exact alphanumericP_stop (r' ++ t) ho h2 hd

theorem alphanumericP_eof_append {s o : List Char} (h : alphanumericP s = .done [] o)
    {d : Char} (ho : o ≠ []) (hd : isAlnumB d = false) (u : List Char) :
    alphanumericP (s ++ d :: u) = .done (d :: u) o := by
  obtain ⟨h1, h2, -⟩ := alphanumericP_done_inv h
  rw [List.append_nil] at h1
  subst h1
  exact alphanumericP_stop u ho h2 hd

theorem alphanumericP_out_nil {s r : List Char} (h : alphanumericP s = .done r []) :
    s = [] ∧ r = [] := by
  cases s with
  | nil =>
    simp only [alphanumericP] at h
    cases h
    exact ⟨rfl, rfl⟩
  | cons c s' =>
    simp only [alphanumericP] at h
    by_cases hc : isAlnumB c = true
    · rw [if_pos hc] at h
      injection h with h1 h2
      rw [List.takeWhile_cons, if_pos hc] at h2
      cases h2
    · rw [if_neg hc] at h
      exact absurd h (by simp)

/-! Reduction lemmas for the sequencing combinators. -/

theorem andThen_done {rest : List Char} {a : α} (f : List Char → α → NR β) :
    andThen (.done rest a) f = f rest a := rfl

theorem andThen_error (f : List Char → α → NR β) :
    andThen (.error : NR α) f = .error := rfl

theorem andThen_incomplete (f : List Char → α → NR β) :
    andThen (.incomplete : NR α) f = .incomplete := rfl

theorem optP_done {p : List Char → NR α} {s r : List Char} {o : α}
    (h : p s = .done r o) : optP p s = .done r (some o) := by
  unfold optP
  rw [h]

theorem optP_none {p : List Char → NR α} {s : List Char}
    (h : p s = .error) : optP p s = .done s none := by
  unfold optP
  rw [h]

theorem optP_of_incomplete {p : List Char → NR α} {s : List Char}
    (h : p s = .incomplete) : optP p s = .incomplete := by
  unfold optP
  rw [h]

/-! Facts about the concrete tags of the parser. -/

theorem tagP_head_ne {a b : Char} {w' s' : List Char} (hab : a ≠ b) :
    tagP (a :: w') (b :: s') = .error := by
  have hne : ¬ ((b :: s').take (min (b :: s').length (a :: w').length) =
      (a :: w').take (min (b :: s').length (a :: w').length)) := by
    rw [List.length_cons, List.length_cons, Nat.succ_min_succ,
      List.take_succ_cons, List.take_succ_cons]
    intro heq
    injection heq with h1 _
    exact hab h1.symm
  simp only [tagP]
  rw [if_neg hne]

theorem tagP_pipeat_snd_ne {d : Char} {ys : List Char} (hd : d ≠ '@') :
    tagP ['|', '@'] ('|' :: d :: ys) = .error := by
  have hmin : min ('|' :: d :: ys).length (['|', '@'] : List Char).length = 2 := by
    simp only [List.length_cons, List.length_nil]
    omega
  have hne : ¬ (('|' :: d :: ys).take (min ('|' :: d :: ys).length
      (['|', '@'] : List Char).length) =
      (['|', '@'] : List Char).take (min ('|' :: d :: ys).length
      (['|', '@'] : List Char).length)) := by
    rw [hmin, List.take_succ_cons, List.take_succ_cons]
    intro heq
    injection heq with _ heq2
    injection heq2 with h2 _
    exact hd h2
  simp only [tagP]
  rw [if_neg hne]

/-! The possible outcomes of an opt!(complete!(sample_rate)) attempt. -/

theorem validF64_nil : validF64 [] = false := rfl

theorem rate_none_nil : optP (fun u => completeP (sample_rate u)) [] = .done [] none := rfl

theorem rate_none_head {c : Char} {xs : List Char} (hc : c ≠ '|') :
    optP (fun u => completeP (sample_rate u)) (c :: xs) = .done (c :: xs) none := by
  have hs : sample_rate (c :: xs) = .error := by
    unfold sample_rate
    rw [tagP_head_ne (fun h => hc h.symm), andThen_error]
  apply optP_none
  rw [hs]
  rfl

theorem rate_none_pipe_nil :
    optP (fun u => completeP (sample_rate u)) ['|'] = .done ['|'] none := rfl

theorem rate_none_pipe_snd {d : Char} {ys : List Char} (hd : d ≠ '@') :
    optP (fun u => completeP (sample_rate u)) ('|' :: d :: ys) =
      .done ('|' :: d :: ys) none := by
  have hs : sample_rate ('|' :: d :: ys) = .error := by
    unfold sample_rate
    rw [tagP_pipeat_snd_ne hd, andThen_error]
  apply optP_none
  rw [hs]
  rfl

theorem rate_none_invalid {ys : List Char}
    (hval : validF64 (ys.takeWhile (notIn ['\n'])) = false) :
    optP (fun u => completeP (sample_rate u)) ('|' :: '@' :: ys) =
      .done ('|' :: '@' :: ys) none := by
  have htag : tagP ['|', '@'] ('|' :: '@' :: ys) = .done ys ['|', '@'] :=
    tagP_prepend ['|', '@'] ys
  cases ys with
  | nil => rfl
  | cons y ys' =>
    by_cases hy : (['\n'] : List Char).contains y = true
    · have hs : sample_rate ('|' :: '@' :: y :: ys') = .error := by
        unfold sample_rate
        rw [htag, andThen_done]
        have hin : isNot ['\n'] (y :: ys') = .error := by
          simp only [isNot]
          rw [if_pos hy]
        rw [hin, andThen_error]
      apply optP_none
      rw [hs]
      rfl
    · have hin : isNot ['\n'] (y :: ys') =
          .done ((y :: ys').dropWhile (notIn ['\n'])) ((y :: ys').takeWhile (notIn ['\n'])) := by
        simp only [isNot]
        rw [if_neg hy]
      have hs : sample_rate ('|' :: '@' :: y :: ys') = .error := by
        unfold sample_rate
        rw [htag, andThen_done, hin, andThen_done, if_neg (by rw [hval]; exact Bool.false_ne_true)]
      apply optP_none
      rw [hs]
      rfl

theorem rate_none_pipeat_inv {ys r : List Char}
    (h : optP (fun u => completeP (sample_rate u)) ('|' :: '@' :: ys) = .done r none) :
    validF64 (ys.takeWhile (notIn ['\n'])) = false := by
  have htag : tagP ['|', '@'] ('|' :: '@' :: ys) = .done ys ['|', '@'] :=
    tagP_prepend ['|', '@'] ys
  cases ys with
  | nil => exact validF64_nil
  | cons y ys' =>
    by_cases hy : (['\n'] : List Char).contains y = true
    · have hy' : notIn ['\n'] y = false := by
        simp only [notIn]
        rw [hy]
        rfl
      rw [List.takeWhile_cons, if_neg (by rw [hy']; exact Bool.false_ne_true)]
      exact validF64_nil
    · by_contra hv
      have hv' : validF64 ((y :: ys').takeWhile (notIn ['\n'])) = true :=
        Bool.of_not_eq_false hv
      have hin : isNot ['\n'] (y :: ys') =
          .done ((y :: ys').dropWhile (notIn ['\n'])) ((y :: ys').takeWhile (notIn ['\n'])) := by
        simp only [isNot]
        rw [if_neg hy]
      have hs : sample_rate ('|' :: '@' :: y :: ys') =
          .done ((y :: ys').dropWhile (notIn ['\n'])) ((y :: ys').takeWhile (notIn ['\n'])) := by
        unfold sample_rate
        rw [htag, andThen_done, hin, andThen_done, if_pos hv']
      rw [optP_done (by rw [hs]; rfl)] at h
      exact Option.noConfusion (NR.done.inj h).2

/-! Membership facts for singleton character sets. -/

theorem contains_single_eq_false {a c : Char} (h : c ≠ a) :
    ([a] : List Char).contains c = false := by
  simp only [List.contains_cons, List.contains_nil, Bool.or_false]
  exact beq_eq_false_iff_ne.mpr h

theorem contains_single_self (a : Char) : ([a] : List Char).contains a = true := by
  simp only [List.contains_cons, List.contains_nil, Bool.or_false]
  exact beq_self_eq_true a

theorem tagP_single (a : Char) (X : List Char) : tagP [a] (a :: X) = .done X [a] :=
  tagP_prepend [a] X

/-- Parsing one full line shaped name, colon, value, pipe, token, followed by
rest, when the token run stops at the front of rest and the sample rate
attempt on rest fails. This is the shape statsd_metric gives every Done
result whose rate is None. -/
theorem statsd_metric_line {n v tok t : List Char}
    (hn : n ≠ []) (hnc : ∀ c ∈ n, c ≠ ':')
    (hv : v ≠ []) (hvc : ∀ c ∈ v, c ≠ '|')
    (ht : tok ≠ []) (hta : ∀ c ∈ tok, isAlnumB c = true)
    (hrest : ∀ d r', t = d :: r' → isAlnumB d = false)
    (hrate : optP (fun u => completeP (sample_rate u)) t = .done t none) :
    statsd_metric (n ++ ':' :: (v ++ '|' :: (tok ++ t))) =
      .done t { name := n, value := v, metric_type := parse_metric_type tok,
                unit := parse_unit tok, sample_rate := none } := by
  have h1 : isNot [':'] (n ++ ':' :: (v ++ '|' :: (tok ++ t))) =
      .done (':' :: (v ++ '|' :: (tok ++ t))) n :=
    isNot_sep _ hn (fun c hc => contains_single_eq_false (hnc c hc))
      (contains_single_self ':')
  have h3 : isNot ['|'] (v ++ '|' :: (tok ++ t)) = .done ('|' :: (tok ++ t)) v :=
    isNot_sep _ hv (fun c hc => contains_single_eq_false (hvc c hc))
      (contains_single_self '|')
  have h5 : alphanumericP (tok ++ t) = .done t tok := by
    cases t with
    | nil =>
      rw [List.append_nil]
      exact alphanumericP_all hta
    | cons d r' => exact alphanumericP_stop r' ht hta (hrest d r' rfl)
  unfold statsd_metric
  rw [h1, andThen_done, tagP_single ':' _, andThen_done, h3, andThen_done,
    tagP_single '|' _, andThen_done, h5, andThen_done, hrate, andThen_done]

/-! Inversion of successful parses, for the unit and type invariant. -/

theorem parse_unit_none_iff (t : List Char) :
    parse_unit t = none ↔
      (parse_metric_type t = .Counter ∨ parse_metric_type t = .Gauge ∨
        parse_metric_type t = .Set) := by
  unfold parse_unit parse_metric_type
  by_cases h1 : t = ['c']
  · simp [h1]
  · by_cases h2 : t = ['g'] <;> by_cases h3 : t = ['s'] <;> simp [h1, h2, h3]

theorem statsd_metric_done_inv {s r : List Char} {m : Metric}
    (h : statsd_metric s = .done r m) :
    ∃ tok, m.metric_type = parse_metric_type tok ∧ m.unit = parse_unit tok := by
  unfold statsd_metric at h
  cases e1 : isNot [':'] s with
  | error => rw [e1, andThen_error] at h; cases h
  | incomplete => rw [e1, andThen_incomplete] at h; cases h
  | done s1 name =>
    rw [e1, andThen_done] at h
    cases e2 : tagP [':'] s1 with
    | error => rw [e2, andThen_error] at h; cases h
    | incomplete => rw [e2, andThen_incomplete] at h; cases h
    | done s2 o2 =>
      rw [e2, andThen_done] at h
      cases e3 : isNot ['|'] s2 with
      | error => rw [e3, andThen_error] at h; cases h
      | incomplete => rw [e3, andThen_incomplete] at h; cases h
      | done s3 v =>
        rw [e3, andThen_done] at h
        cases e4 : tagP ['|'] s3 with
        | error => rw [e4, andThen_error] at h; cases h
        | incomplete => rw [e4, andThen_incomplete] at h; cases h
        | done s4 o4 =>
          rw [e4, andThen_done] at h
          cases e5 : alphanumericP s4 with
          | error => rw [e5, andThen_error] at h; cases h
          | incomplete => rw [e5, andThen_incomplete] at h; cases h
          | done s5 tou =>
            rw [e5, andThen_done] at h
            cases e6 : optP (fun u => completeP (sample_rate u)) s5 with
            | error => rw [e6, andThen_error] at h; cases h
            | incomplete => rw [e6, andThen_incomplete] at h; cases h
            | done s6 rate =>
              rw [e6, andThen_done] at h
              cases h
              exact ⟨tou, rfl, rfl⟩

theorem statsdElem_done_inv {s r : List Char} {m : Metric}
    (h : statsdElem s = .done r m) : ∃ r', statsd_metric s = .done r' m := by
  unfold statsdElem at h
  cases e1 : statsd_metric s with
  | error => rw [e1, andThen_error] at h; cases h
  | incomplete => rw [e1, andThen_incomplete] at h; cases h
  | done r1 m1 =>
    rw [e1, andThen_done] at h
    cases e2 : optP (fun u => completeP (tagP ['\n'] u)) r1 with
    | error => rw [e2, andThen_error] at h; cases h
    | incomplete => rw [e2, andThen_incomplete] at h; cases h
    | done r2 o2 =>
      rw [e2, andThen_done] at h
      cases h
      exact ⟨r1, rfl⟩

theorem statsdLoopN_mem :
    ∀ {fuel : Nat} {input : List Char} {acc : List Metric} {r : List Char}
      {ms : List Metric}, statsdLoopN fuel input acc = .done r ms →
      ∀ m ∈ ms, m ∈ acc ∨ ∃ s' r', statsd_metric s' = .done r' m := by
  intro fuel
  induction fuel with
  | zero =>
    intro input acc r ms h m hm
    cases input with
    | nil => cases h; exact Or.inl hm
    | cons c input' => cases h; exact Or.inl hm
  | succ fuel ih =>
    intro input acc r ms h m hm
    cases input with
    | nil => cases h; exact Or.inl hm
    | cons c input' =>
      rw [statsdLoopN] at h
      split at h
      · cases h; exact Or.inl hm
      · cases h
      · rename_i i o e
        split at h
        · cases h; exact Or.inl hm
        · rcases ih h m hm with hacc | hfound
          · rcases List.mem_append.mp hacc with h1 | h1
            · exact Or.inl h1
            · obtain ⟨r', e'⟩ := statsdElem_done_inv e
              rw [List.mem_singleton] at h1
              subst h1
              exact Or.inr ⟨c :: input', r', e'⟩
          · exact Or.inr hfound

theorem statsdLoopN_acc_init :
    ∀ {fuel : Nat} {input : List Char} {acc : List Metric} {r : List Char}
      {ms : List Metric}, statsdLoopN fuel input acc = .done r ms →
      ∃ tail, ms = acc ++ tail := by
  intro fuel
  induction fuel with
  | zero =>
    intro input acc r ms h
    cases input with
    | nil => cases h; exact ⟨[], by simp⟩
    | cons c input' => cases h; exact ⟨[], by simp⟩
  | succ fuel ih =>
    intro input acc r ms h
    cases input with
    | nil => cases h; exact ⟨[], by simp⟩
    | cons c input' =>
      rw [statsdLoopN] at h
      split at h
      · cases h; exact ⟨[], by simp⟩
      · cases h
      · rename_i i o e
        split at h
        · cases h; exact ⟨[], by simp⟩
        · obtain ⟨tail, htail⟩ := ih h
          exact ⟨o :: tail, by simp [htail]⟩

/-! Step lemmas for the batch parser. -/

theorem optNl_nil : optP (fun u => completeP (tagP ['\n'] u)) [] = .done [] none := rfl

theorem optNl_cons (X : List Char) :
    optP (fun u => completeP (tagP ['\n'] u)) ('\n' :: X) = .done X (some ['\n']) := by
  apply optP_done
  show completeP (tagP ['\n'] ('\n' :: X)) = .done X ['\n']
  rw [tagP_single '\n' X]
  rfl

theorem optNl_head_ne {c : Char} {X : List Char} (hc : c ≠ '\n') :
    optP (fun u => completeP (tagP ['\n'] u)) (c :: X) = .done (c :: X) none := by
  apply optP_none
  show completeP (tagP ['\n'] (c :: X)) = .error
  rw [tagP_head_ne (fun h => hc h.symm)]
  rfl

theorem statsd_done_of_elem {s i1 : List Char} {o1 : Metric}
    (h : statsdElem s = .done i1 o1) :
    statsd s = if i1 = [] then .done [] [o1] else statsdLoopN i1.length i1 [o1] := by
  unfold statsd
  rw [h]

theorem statsd_error_of_elem {s : List Char} (h : statsdElem s = .error) :
    statsd s = .error := by
  unfold statsd
  rw [h]

theorem statsd_incomplete_of_elem {s : List Char} (h : statsdElem s = .incomplete) :
    statsd s = .incomplete := by
  unfold statsd
  rw [h]

theorem statsdLoopN_nil (fuel : Nat) (acc : List Metric) :
    statsdLoopN fuel [] acc = .done [] acc := by
  cases fuel <;> rfl

theorem statsdLoopN_done_step {c : Char} {input' i : List Char} {o : Metric}
    (fuel : Nat) (acc : List Metric) (h : statsdElem (c :: input') = .done i o) :
    statsdLoopN (fuel + 1) (c :: input') acc =
      if i.length = (c :: input').length then .done (c :: input') acc
      else statsdLoopN fuel i (acc ++ [o]) := by
  rw [statsdLoopN, h]

theorem statsdLoopN_error_step {c : Char} {input' : List Char}
    (fuel : Nat) (acc : List Metric) (h : statsdElem (c :: input') = .error) :
    statsdLoopN (fuel + 1) (c :: input') acc = .done (c :: input') acc := by
  rw [statsdLoopN, h]

theorem statsdLoopN_incomplete_step {c : Char} {input' : List Char}
    (fuel : Nat) (acc : List Metric) (h : statsdElem (c :: input') = .incomplete) :
    statsdLoopN (fuel + 1) (c :: input') acc = .incomplete := by
  rw [statsdLoopN, h]

/-! Rewriting of parse_metric_type and parse_unit into the shape the spec
states them in. -/

theorem parse_unit_eq (t : List Char) :
    parse_unit t = (if t = ['c'] ∨ t = ['g'] ∨ t = ['s'] then none else some t) := by
  unfold parse_unit
  by_cases h1 : t = ['c'] <;> by_cases h2 : t = ['g'] <;> by_cases h3 : t = ['s'] <;>
    simp [h1, h2, h3]

/-! Claim theorems. -/

/-- C1: for every non-empty name without a colon and non-empty value without a
pipe, parsing name:value|token succeeds; the reserved tokens c, g, s give
Counter, Gauge, Set with no unit, and every other non-empty alphanumeric token
gives a Sample carrying the token verbatim as its unit. -/
theorem c1_single_line_classification
    (name value token : List Char)
    (hn : name ≠ []) (hnc : ':' ∉ name)
    (hv : value ≠ []) (hvc : '|' ∉ value)
    (ht : token ≠ []) (hta : ∀ c ∈ token, isAlnumB c = true) :
    statsd_metric (name ++ ':' :: (value ++ '|' :: token)) =
      .done [] { name := name, value := value,
                 metric_type := if token = ['c'] then .Counter
                   else if token = ['g'] then .Gauge
                   else if token = ['s'] then .Set
                   else .Sample,
                 unit := if token = ['c'] ∨ token = ['g'] ∨ token = ['s'] then none
                   else some token,
                 sample_rate := none } := by
  have h := statsd_metric_line (t := []) hn (fun c hc he => hnc (he ▸ hc))
    hv (fun c hc he => hvc (he ▸ hc)) ht hta (fun d r' h => by cases h) rate_none_nil
  rw [List.append_nil] at h
  rw [h, parse_unit_eq]
  rfl

/-- Witness for C1 at a concrete sample line. -/
theorem c1_witness :
    statsd_metric ("glork".toList ++ ':' :: ("320".toList ++ '|' :: "ms".toList)) =
      .done [] { name := "glork".toList, value := "320".toList,
                 metric_type := MetricType.Sample, unit := some ("ms".toList),
                 sample_rate := none } := by
  have h := c1_single_line_classification ("glork".toList) ("320".toList) ("ms".toList)
    (by decide) (by decide) (by decide) (by decide) (by decide) (by decide)
  rw [h]
  decide

/-- C2: every metric obtained from a successful parse, single line or batch,
has unit None exactly when its type is Counter, Gauge, or Set. -/
theorem c2_unit_none_iff_reserved :
    (∀ s r m, statsd_metric s = .done r m →
      (m.unit = none ↔ (m.metric_type = .Counter ∨ m.metric_type = .Gauge ∨
        m.metric_type = .Set))) ∧
    (∀ s r ms, statsd s = .done r ms → ∀ m ∈ ms,
      (m.unit = none ↔ (m.metric_type = .Counter ∨ m.metric_type = .Gauge ∨
        m.metric_type = .Set))) := by
  have single : ∀ s r m, statsd_metric s = .done r m →
      (m.unit = none ↔ (m.metric_type = .Counter ∨ m.metric_type = .Gauge ∨
        m.metric_type = .Set)) := by
    intro s r m h
    obtain ⟨tok, h1, h2⟩ := statsd_metric_done_inv h
    rw [h1, h2]
    exact parse_unit_none_iff tok
  refine ⟨single, ?_⟩
  intro s r ms h m hm
  unfold statsd at h
  split at h
  · cases h
  · cases h
  · rename_i i1 o1 e
    split at h
    · cases h
      rw [List.mem_singleton] at hm
      subst hm
      obtain ⟨r', e'⟩ := statsdElem_done_inv e
      exact single _ _ _ e'
    · rcases statsdLoopN_mem h m hm with hacc | ⟨s', r', e'⟩
      · rw [List.mem_singleton] at hacc
        subst hacc
        obtain ⟨r', e'⟩ := statsdElem_done_inv e
        exact single _ _ _ e'
      · exact single _ _ _ e'

/-- Witness for C2 at a concrete parsed sample metric. -/
theorem c2_witness :
    (({ name := "glork".toList, value := "320".toList,
        metric_type := MetricType.Sample, unit := some ("ms".toList),
        sample_rate := none } : Metric).unit = none ↔
      (({ name := "glork".toList, value := "320".toList,
          metric_type := MetricType.Sample, unit := some ("ms".toList),
          sample_rate := none } : Metric).metric_type = .Counter ∨
        ({ name := "glork".toList, value := "320".toList,
           metric_type := MetricType.Sample, unit := some ("ms".toList),
           sample_rate := none } : Metric).metric_type = .Gauge ∨
        ({ name := "glork".toList, value := "320".toList,
           metric_type := MetricType.Sample, unit := some ("ms".toList),
           sample_rate := none } : Metric).metric_type = .Set)) :=
  c2_unit_none_iff_reserved.1 ("glork:320|ms".toList) []
    { name := "glork".toList, value := "320".toList,
      metric_type := MetricType.Sample, unit := some ("ms".toList),
      sample_rate := none } (by decide)

/-- C3 counterexample: a well-formed prefix followed by a pipe-at suffix whose
text is not a float literal does not fail; statsd_metric succeeds and leaves
the suffix unconsumed. -/
theorem c3_counterexample :
    statsd_metric ("x:1|c|@notanumber".toList) =
      .done ("|@notanumber".toList)
        { name := "x".toList, value := "1".toList, metric_type := MetricType.Counter,
          unit := none, sample_rate := none } ∧
    statsd_metric ("x:1|c|@notanumber".toList) ≠ .error := by
  exact ⟨by decide, by decide⟩

/-- C3 amended: for a well-formed line followed by a pipe-at suffix whose
newline-free text is not accepted by f64::from_str, the single line parse
succeeds with sample rate None and the whole suffix left unconsumed, instead
of failing with MalformedInput. -/
theorem c3_amended_rate_junk (name value token junk : List Char)
    (hn : name ≠ []) (hnc : ':' ∉ name) (hv : value ≠ []) (hvc : '|' ∉ value)
    (ht : token ≠ []) (hta : ∀ c ∈ token, isAlnumB c = true)
    (hj : '\n' ∉ junk) (hjv : validF64 junk = false) :
    statsd_metric (name ++ ':' :: (value ++ '|' :: (token ++ '|' :: '@' :: junk))) =
      .done ('|' :: '@' :: junk)
        { name := name, value := value, metric_type := parse_metric_type token,
          unit := parse_unit token, sample_rate := none } := by
  apply statsd_metric_line hn (fun c hc he => hnc (he ▸ hc))
    hv (fun c hc he => hvc (he ▸ hc)) ht hta
  · intro d r' h
    injection h with h1 _
    rw [← h1]
    decide
  · have htw : junk.takeWhile (notIn ['\n']) = junk := by
      refine (takeWhile_all ?_).1
      intro c hc
      simp only [notIn]
      rw [contains_single_eq_false (fun he => hj (by rw [← he]; exact hc))]
      rfl
    exact rate_none_invalid (by rw [htw]; exact hjv)

/-- Witness for C3 amended. -/
theorem c3_witness :
    statsd_metric ("x".toList ++ ':' ::
        ("1".toList ++ '|' :: ("c".toList ++ '|' :: '@' :: "notanumber".toList))) =
      .done ('|' :: '@' :: "notanumber".toList)
        { name := "x".toList, value := "1".toList, metric_type := MetricType.Counter,
          unit := none, sample_rate := none } := by
  have h := c3_amended_rate_junk ("x".toList) ("1".toList) ("c".toList)
    ("notanumber".toList) (by decide) (by decide) (by decide) (by decide)
    (by decide) (by decide) (by decide) (by decide)
  rw [h]
  decide

/-- C4 counterexample: a batch with a malformed second line does not fail as a
whole; the successfully parsed first record is returned with the malformed
tail unconsumed. -/
theorem c4_counterexample :
    statsd ("a:1|c\n:1|c".toList) =
      .done (":1|c".toList)
        [{ name := "a".toList, value := "1".toList, metric_type := MetricType.Counter,
           unit := none, sample_rate := none }] := by
  decide

/-- C6 counterexample: an embedded empty line is not rejected; the batch
parses successfully and the blank line's newline becomes the first character
of the following metric's name. -/
theorem c6_counterexample :
    statsd ("a:1|c\n\nb:2|c".toList) =
      .done []
        [{ name := "a".toList, value := "1".toList, metric_type := MetricType.Counter,
           unit := none, sample_rate := none },
         { name := '\n' :: "b".toList, value := "2".toList,
           metric_type := MetricType.Counter, unit := none, sample_rate := none }] := by
  decide

/-- C6 amended: an embedded empty line is not a failure at that position; the
second newline is consumed by is_not(colon) as part of the following name, so
the batch succeeds with the blank line absorbed into the next record's name.
Only a blank line at the very end of the buffer makes the parse fail, and it
does so with Incomplete, not with an error. -/
theorem c6_amended_blank_absorbed
    (n1 v1 t1 n2 v2 t2 : List Char)
    (hn1 : n1 ≠ []) (hnc1 : ':' ∉ n1) (hv1 : v1 ≠ []) (hvc1 : '|' ∉ v1)
    (ht1 : t1 ≠ []) (hta1 : ∀ c ∈ t1, isAlnumB c = true)
    (hnc2 : ':' ∉ n2) (hv2 : v2 ≠ []) (hvc2 : '|' ∉ v2)
    (ht2 : t2 ≠ []) (hta2 : ∀ c ∈ t2, isAlnumB c = true) :
    statsd (n1 ++ ':' :: (v1 ++ '|' :: (t1 ++ '\n' :: '\n' ::
        (n2 ++ ':' :: (v2 ++ '|' :: t2))))) =
      .done []
        [{ name := n1, value := v1, metric_type := parse_metric_type t1,
           unit := parse_unit t1, sample_rate := none },
         { name := '\n' :: n2, value := v2, metric_type := parse_metric_type t2,
           unit := parse_unit t2, sample_rate := none }] ∧
    statsd ("a:1|c\n\n".toList) = .incomplete := by
  refine ⟨?_, by decide⟩
  have hm1 := statsd_metric_line
    (t := '\n' :: '\n' :: (n2 ++ ':' :: (v2 ++ '|' :: t2)))
    hn1 (fun c hc he => hnc1 (by rw [← he]; exact hc))
    hv1 (fun c hc he => hvc1 (by rw [← he]; exact hc)) ht1 hta1
    (fun d r' h => by injection h with h1 _; rw [← h1]; decide)
    (rate_none_head (by decide))
  have he1 : statsdElem (n1 ++ ':' :: (v1 ++ '|' :: (t1 ++ '\n' :: '\n' ::
      (n2 ++ ':' :: (v2 ++ '|' :: t2))))) =
      .done ('\n' :: (n2 ++ ':' :: (v2 ++ '|' :: t2)))
        { name := n1, value := v1, metric_type := parse_metric_type t1,
          unit := parse_unit t1, sample_rate := none } := by
    unfold statsdElem
    rw [hm1, andThen_done, optNl_cons, andThen_done]
  have hshape : '\n' :: (n2 ++ ':' :: (v2 ++ '|' :: t2)) =
      ('\n' :: n2) ++ ':' :: (v2 ++ '|' :: (t2 ++ [])) := by
    rw [List.append_nil]
    rfl
  have hm2 : statsd_metric ('\n' :: (n2 ++ ':' :: (v2 ++ '|' :: t2))) =
      .done []
        { name := '\n' :: n2, value := v2, metric_type := parse_metric_type t2,
          unit := parse_unit t2, sample_rate := none } := by
    rw [hshape]
    apply statsd_metric_line
    · simp
    · intro c hc
      rcases List.mem_cons.mp hc with rfl | hc2
      · decide
      · exact fun he => hnc2 (by rw [← he]; exact hc2)
    · exact hv2
    · exact fun c hc he => hvc2 (by rw [← he]; exact hc)
    · exact ht2
    · exact hta2
    · intro d r' h
      cases h
    · exact rate_none_nil
  have he2 : statsdElem ('\n' :: (n2 ++ ':' :: (v2 ++ '|' :: t2))) =
      .done []
        { name := '\n' :: n2, value := v2, metric_type := parse_metric_type t2,
          unit := parse_unit t2, sample_rate := none } := by
    unfold statsdElem
    rw [hm2, andThen_done, optNl_nil, andThen_done]
  rw [statsd_done_of_elem he1, if_neg (by simp), List.length_cons,
    statsdLoopN_done_step _ _ he2, if_neg (by simp), statsdLoopN_nil]
  rfl

/-- Witness for C6 amended at two concrete lines. -/
theorem c6_witness :
    statsd ("a".toList ++ ':' :: ("1".toList ++ '|' :: ("c".toList ++ '\n' :: '\n' ::
        ("b".toList ++ ':' :: ("2".toList ++ '|' :: "c".toList))))) =
      .done []
        [{ name := "a".toList, value := "1".toList, metric_type := MetricType.Counter,
           unit := none, sample_rate := none },
         { name := '\n' :: "b".toList, value := "2".toList,
           metric_type := MetricType.Counter, unit := none, sample_rate := none }] := by
  have h := (c6_amended_blank_absorbed ("a".toList) ("1".toList) ("c".toList)
    ("b".toList) ("2".toList) ("c".toList) (by decide) (by decide) (by decide)
    (by decide) (by decide) (by decide) (by decide) (by decide) (by decide)
    (by decide) (by decide)).1
  rw [h]
  decide

/-- C9 counterexample: the input x:1| does not fail with MalformedInput; it
succeeds, classifying the empty discriminator as a Sample with unit Some of
the empty string. -/
theorem c9_counterexample :
    statsd_metric ("x:1|".toList) =
      .done [] { name := "x".toList, value := "1".toList,
                 metric_type := MetricType.Sample, unit := some [],
                 sample_rate := none } := by
  decide

/-- C9 amended: of the five inputs, only the empty-name and empty-value cases
fail with an Error; the empty input fails with Incomplete, the empty type
token succeeds as a Sample with an empty unit, and the invalid sample rate
literal succeeds as a Counter with rate None and the suffix left unconsumed. -/
theorem c9_amended_outcomes :
    statsd_metric ([]) = .incomplete ∧
    statsd_metric (":1|c".toList) = .error ∧
    statsd_metric ("x:|c".toList) = .error ∧
    statsd_metric ("x:1|".toList) =
      .done [] { name := "x".toList, value := "1".toList,
                 metric_type := MetricType.Sample, unit := some [],
                 sample_rate := none } ∧
    statsd_metric ("x:1|c|@notanumber".toList) =
      .done ("|@notanumber".toList)
        { name := "x".toList, value := "1".toList, metric_type := MetricType.Counter,
          unit := none, sample_rate := none } := by
  exact ⟨by decide, by decide, by decide, by decide, by decide⟩

/-- C10: when a well-formed line prefix is followed by bytes that neither
extend the alphanumeric token nor start a pipe-at suffix with a valid float
literal, statsd_metric succeeds with sample rate None and leaves the trailing
bytes unconsumed. -/
theorem c10_leftover_success (name value token t : List Char)
    (hn : name ≠ []) (hnc : ':' ∉ name) (hv : value ≠ []) (hvc : '|' ∉ value)
    (ht : token ≠ []) (hta : ∀ c ∈ token, isAlnumB c = true)
    (hhead : ∀ d r', t = d :: r' → isAlnumB d = false)
    (hrate : ¬ (t.take 2 = ['|', '@'] ∧
      validF64 ((t.drop 2).takeWhile (notIn ['\n'])) = true)) :
    statsd_metric (name ++ ':' :: (value ++ '|' :: (token ++ t))) =
      .done t { name := name, value := value, metric_type := parse_metric_type token,
                unit := parse_unit token, sample_rate := none } := by
  apply statsd_metric_line hn (fun c hc he => hnc (by rw [← he]; exact hc))
    hv (fun c hc he => hvc (by rw [← he]; exact hc)) ht hta hhead
  cases t with
  | nil => exact rate_none_nil
  | cons c xs =>
    by_cases hc : c = '|'
    · subst hc
      cases xs with
      | nil => exact rate_none_pipe_nil
      | cons d ys =>
        by_cases hd : d = '@'
        · subst hd
          apply rate_none_invalid
          have h2 : ¬ (validF64 (ys.takeWhile (notIn ['\n'])) = true) :=
            fun hv' => hrate ⟨rfl, hv'⟩
          exact Bool.of_not_eq_true h2
        · exact rate_none_pipe_snd hd
    · exact rate_none_head hc

/-- Witness for C10 with trailing text that is neither token nor rate. -/
theorem c10_witness :
    statsd_metric ("x".toList ++ ':' :: ("1".toList ++ '|' ::
        ("c".toList ++ " trailing".toList))) =
      .done (" trailing".toList)
        { name := "x".toList, value := "1".toList, metric_type := MetricType.Counter,
          unit := none, sample_rate := none } := by
  have h := c10_leftover_success ("x".toList) ("1".toList) ("c".toList)
    (" trailing".toList) (by decide) (by decide) (by decide) (by decide)
    (by decide) (by decide)
    (by intro d r' hh; injection hh with h1 _; rw [← h1]; decide)
    (by decide)
  rw [h]
  decide

/-- C7 counterexample: the batch x:1| parses successfully, but appending one
newline makes the parse fail, because the empty discriminator token can only
be accepted at the end of the buffer. -/
theorem c7_counterexample :
    statsd ("x:1|".toList) =
      .done [] [{ name := "x".toList, value := "1".toList,
                  metric_type := MetricType.Sample, unit := some [],
                  sample_rate := none }] ∧
    statsd ("x:1|\n".toList) = .error := by
  exact ⟨by decide, by decide⟩

/-- C8 counterexample: the empty batch fails with Incomplete, the very same
outcome as a non-empty input lacking a complete first line, so no dedicated
EmptyInput error kind distinguishes the empty buffer. -/
theorem c8_counterexample :
    statsd ([]) = .incomplete ∧ statsd ("abc".toList) = .incomplete := by
  exact ⟨by decide, by decide⟩

/-- C8 amended: the empty batch fails, with the Incomplete outcome rather
than a dedicated EmptyInput kind, and every successful batch parse returns at
least one metric. -/
theorem c8_amended_empty_and_nonempty :
    statsd ([]) = .incomplete ∧
    (∀ s r ms, statsd s = .done r ms → ms ≠ []) := by
  refine ⟨by decide, ?_⟩
  intro s r ms h
  unfold statsd at h
  split at h
  · cases h
  · cases h
  · rename_i i1 o1 e
    split at h
    · cases h
      simp
    · obtain ⟨tail, htail⟩ := statsdLoopN_acc_init h
      rw [htail]
      simp

/-- Witness for C8 amended: a concrete successful batch is non-empty. -/
theorem c8_witness :
    ([{ name := "a".toList, value := "1".toList, metric_type := MetricType.Counter,
        unit := none, sample_rate := none }] : List Metric) ≠ [] :=
  c8_amended_empty_and_nonempty.2 ("a:1|c".toList) []
    [{ name := "a".toList, value := "1".toList, metric_type := MetricType.Counter,
       unit := none, sample_rate := none }] (by decide)

/-! Outcome of the optional combinators keyed on the result of the inner
parser. -/

theorem rateOpt_of_done {s5 r' lit : List Char} (sr : sample_rate s5 = .done r' lit) :
    optP (fun u => completeP (sample_rate u)) s5 = .done r' (some lit) := by
  apply optP_done
  show completeP (sample_rate s5) = .done r' lit
  rw [sr]
  rfl

theorem rateOpt_of_error {s5 : List Char} (sr : sample_rate s5 = .error) :
    optP (fun u => completeP (sample_rate u)) s5 = .done s5 none := by
  apply optP_none
  show completeP (sample_rate s5) = .error
  rw [sr]
  rfl

theorem rateOpt_of_incomplete {s5 : List Char} (sr : sample_rate s5 = .incomplete) :
    optP (fun u => completeP (sample_rate u)) s5 = .done s5 none := by
  apply optP_none
  show completeP (sample_rate s5) = .error
  rw [sr]
  rfl

theorem optNl_of_done {r1 X : List Char} {o' : List Char}
    (t : tagP ['
'] r1 = .done X o') :
    optP (fun u => completeP (tagP ['
'] u)) r1 = .done X (some o') := by
  apply optP_done
  show completeP (tagP ['
'] r1) = .done X o'
  rw [t]
  rfl

theorem optNl_of_error {r1 : List Char} (t : tagP ['
'] r1 = .error) :
    optP (fun u => completeP (tagP ['
'] u)) r1 = .done r1 none := by
  apply optP_none
  show completeP (tagP ['
'] r1) = .error
  rw [t]
  rfl

theorem optNl_of_incomplete {r1 : List Char} (t : tagP ['
'] r1 = .incomplete) :
    optP (fun u => completeP (tagP ['
'] u)) r1 = .done r1 none := by
  apply optP_none
  show completeP (tagP ['
'] r1) = .error
  rw [t]
  rfl

/-! Suffix lemmas: the unconsumed rest of a Done result is a suffix of the
input, every parser only consuming from the front. -/

theorem sample_rate_suffix {s r lit : List Char} (h : sample_rate s = .done r lit) :
    ∃ p, s = p ++ r := by
  unfold sample_rate at h
  cases e1 : tagP ['|', '@'] s with
  | error => rw [e1, andThen_error] at h; cases h
  | incomplete => rw [e1, andThen_incomplete] at h; cases h
  | done s1 o1 =>
    rw [e1, andThen_done] at h
    cases e2 : isNot ['\n'] s1 with
    | error => rw [e2, andThen_error] at h; cases h
    | incomplete => rw [e2, andThen_incomplete] at h; cases h
    | done s2 lit2 =>
      rw [e2, andThen_done] at h
      by_cases hvv : validF64 lit2 = true
      · rw [if_pos hvv] at h
        cases h
        obtain ⟨-, hs⟩ := tagP_eq_done e1
        obtain ⟨h1, -, -⟩ := isNot_done_inv e2
        exact ⟨['|', '@'] ++ lit, by rw [hs, h1, List.append_assoc]⟩
      · rw [if_neg hvv] at h
        cases h

theorem rateOpt_suffix {s5 s6 : List Char} {rate : Option (List Char)}
    (h : optP (fun u => completeP (sample_rate u)) s5 = .done s6 rate) :
    ∃ p, s5 = p ++ s6 := by
  cases sr : sample_rate s5 with
  | done r' lit =>
    rw [rateOpt_of_done sr] at h
    cases h
    exact sample_rate_suffix sr
  | error =>
    rw [rateOpt_of_error sr] at h
    cases h
    exact ⟨[], rfl⟩
  | incomplete =>
    rw [rateOpt_of_incomplete sr] at h
    cases h
    exact ⟨[], rfl⟩

theorem optNl_suffix {s r : List Char} {o : Option (List Char)}
    (h : optP (fun u => completeP (tagP ['\n'] u)) s = .done r o) :
    ∃ p, s = p ++ r := by
  cases t : tagP ['\n'] s with
  | done r' o' =>
    rw [optNl_of_done t] at h
    cases h
    obtain ⟨-, hs⟩ := tagP_eq_done t
    exact ⟨['\n'], hs⟩
  | error =>
    rw [optNl_of_error t] at h
    cases h
    exact ⟨[], rfl⟩
  | incomplete =>
    rw [optNl_of_incomplete t] at h
    cases h
    exact ⟨[], rfl⟩

theorem statsd_metric_suffix {s r : List Char} {m : Metric}
    (h : statsd_metric s = .done r m) : ∃ p, s = p ++ r := by
  unfold statsd_metric at h
  cases e1 : isNot [':'] s with
  | error => rw [e1, andThen_error] at h; cases h
  | incomplete => rw [e1, andThen_incomplete] at h; cases h
  | done s1 nm =>
    rw [e1, andThen_done] at h
    cases e2 : tagP [':'] s1 with
    | error => rw [e2, andThen_error] at h; cases h
    | incomplete => rw [e2, andThen_incomplete] at h; cases h
    | done s2 o2 =>
      rw [e2, andThen_done] at h
      cases e3 : isNot ['|'] s2 with
      | error => rw [e3, andThen_error] at h; cases h
      | incomplete => rw [e3, andThen_incomplete] at h; cases h
      | done s3 v =>
        rw [e3, andThen_done] at h
        cases e4 : tagP ['|'] s3 with
        | error => rw [e4, andThen_error] at h; cases h
        | incomplete => rw [e4, andThen_incomplete] at h; cases h
        | done s4 o4 =>
          rw [e4, andThen_done] at h
          cases e5 : alphanumericP s4 with
          | error => rw [e5, andThen_error] at h; cases h
          | incomplete => rw [e5, andThen_incomplete] at h; cases h
          | done s5 tou =>
            rw [e5, andThen_done] at h
            cases e6 : optP (fun u => completeP (sample_rate u)) s5 with
            | error => rw [e6, andThen_error] at h; cases h
            | incomplete => rw [e6, andThen_incomplete] at h; cases h
            | done s6 rate =>
              rw [e6, andThen_done] at h
              cases h
              obtain ⟨p6, hp6⟩ := rateOpt_suffix e6
              obtain ⟨h5, -, -⟩ := alphanumericP_done_inv e5
              obtain ⟨-, h4⟩ := tagP_eq_done e4
              obtain ⟨h3, -, -⟩ := isNot_done_inv e3
              obtain ⟨-, h2⟩ := tagP_eq_done e2
              obtain ⟨h1, -, -⟩ := isNot_done_inv e1
              refine ⟨nm ++ [':'] ++ v ++ ['|'] ++ tou ++ p6, ?_⟩
              rw [h1, h2, h3, h4, h5, hp6]
              simp [List.append_assoc]

theorem statsdElem_suffix {s r : List Char} {m : Metric}
    (h : statsdElem s = .done r m) : ∃ p, s = p ++ r := by
  unfold statsdElem at h
  cases e1 : statsd_metric s with
  | error => rw [e1, andThen_error] at h; cases h
  | incomplete => rw [e1, andThen_incomplete] at h; cases h
  | done r1 m1 =>
    rw [e1, andThen_done] at h
    cases e2 : optP (fun u => completeP (tagP ['\n'] u)) r1 with
    | error => rw [e2, andThen_error] at h; cases h
    | incomplete => rw [e2, andThen_incomplete] at h; cases h
    | done r2 o2 =>
      rw [e2, andThen_done] at h
      cases h
      obtain ⟨p1, hp1⟩ := statsd_metric_suffix e1
      obtain ⟨p2, hp2⟩ := optNl_suffix e2
      exact ⟨p1 ++ p2, by rw [hp1, hp2, List.append_assoc]⟩

theorem statsdElem_length_le {s r : List Char} {m : Metric}
    (h : statsdElem s = .done r m) : r.length ≤ s.length := by
  obtain ⟨p, rfl⟩ := statsdElem_suffix h
  simp

/-! The loop emits its metrics in input order, one element parse after the
other, each from the position where the previous one stopped. -/

theorem statsdLoopN_trace :
    ∀ {fuel : Nat} {input : List Char} {acc : List Metric} {r : List Char}
      {ms : List Metric}, input.length ≤ fuel →
      statsdLoopN fuel input acc = .done r ms →
      ∃ tail, ms = acc ++ tail ∧ ElemTrace input r tail := by
  intro fuel
  induction fuel with
  | zero =>
    intro input acc r ms hle h
    cases input with
    | nil => cases h; exact ⟨[], by simp, ElemTrace.nil []⟩
    | cons c input' => simp at hle
  | succ fuel ih =>
    intro input acc r ms hle h
    cases input with
    | nil => cases h; exact ⟨[], by simp, ElemTrace.nil []⟩
    | cons c input' =>
      rw [statsdLoopN] at h
      split at h
      · cases h
        exact ⟨[], by simp, ElemTrace.nil _⟩
      · cases h
      · rename_i i o e
        split at h
        · cases h
          exact ⟨[], by simp, ElemTrace.nil _⟩
        · rename_i hlen
          have hfuel : i.length ≤ fuel := by
            have hlt : i.length < (c :: input').length :=
              lt_of_le_of_ne (statsdElem_length_le e) hlen
            rw [List.length_cons] at hle hlt
            omega
          obtain ⟨tail, htail, htr⟩ := ih hfuel h
          exact ⟨o :: tail, by rw [htail]; simp, ElemTrace.cons e htr⟩

/-- C5: the batch parser emits metrics in exactly the order of their lines:
every Done result of statsd is an ElemTrace, one element parse after the
other from the front of the input, and the four-line example yields its four
records in input order. -/
theorem c5_ordered_emission :
    statsd ("gorets:1|c\nglork:320|ms\ngaugor:333|g\nuniques:765|s".toList) =
      .done []
        [{ name := "gorets".toList, value := "1".toList,
           metric_type := MetricType.Counter, unit := none, sample_rate := none },
         { name := "glork".toList, value := "320".toList,
           metric_type := MetricType.Sample, unit := some ("ms".toList),
           sample_rate := none },
         { name := "gaugor".toList, value := "333".toList,
           metric_type := MetricType.Gauge, unit := none, sample_rate := none },
         { name := "uniques".toList, value := "765".toList,
           metric_type := MetricType.Set, unit := none, sample_rate := none }] ∧
    (∀ s r ms, statsd s = .done r ms → ElemTrace s r ms) := by
  refine ⟨by decide, ?_⟩
  intro s r ms h
  unfold statsd at h
  split at h
  · cases h
  · cases h
  · rename_i i1 o1 e
    split at h
    · rename_i hi1
      cases h
      subst hi1
      exact ElemTrace.cons e (ElemTrace.nil [])
    · obtain ⟨tail, htail, htr⟩ := statsdLoopN_trace (Nat.le_refl _) h
      rw [htail]
      exact ElemTrace.cons e htr

/-- Witness for C5: a one-line batch produces a one-step trace. -/
theorem c5_witness :
    ElemTrace ("a:1|c".toList) []
      [{ name := "a".toList, value := "1".toList, metric_type := MetricType.Counter,
         unit := none, sample_rate := none }] :=
  c5_ordered_emission.2 ("a:1|c".toList) []
    [{ name := "a".toList, value := "1".toList, metric_type := MetricType.Counter,
       unit := none, sample_rate := none }] (by decide)

/-! Lemmas about appending one newline to the end of the buffer. -/

theorem getLast?_append_of_ne {l1 l2 : List Char} (h : l2 ≠ []) :
    (l1 ++ l2).getLast? = l2.getLast? := by
  rw [List.getLast?_append]
  cases hx : l2.getLast? with
  | some x => rfl
  | none => exact absurd (List.getLast?_eq_none_iff.mp hx) h

theorem rateOpt_some_inv {s5 s6 lit : List Char}
    (h : optP (fun u => completeP (sample_rate u)) s5 = .done s6 (some lit)) :
    sample_rate s5 = .done s6 lit := by
  cases sr : sample_rate s5 with
  | done a b =>
    rw [rateOpt_of_done sr] at h
    cases h
    rfl
  | error =>
    rw [rateOpt_of_error sr] at h
    cases h
  | incomplete =>
    rw [rateOpt_of_incomplete sr] at h
    cases h

theorem rateOpt_none_inv {s5 s6 : List Char}
    (h : optP (fun u => completeP (sample_rate u)) s5 = .done s6 none) :
    s6 = s5 := by
  cases sr : sample_rate s5 with
  | done a b =>
    rw [rateOpt_of_done sr] at h
    cases h
  | error =>
    rw [rateOpt_of_error sr] at h
    cases h
    rfl
  | incomplete =>
    rw [rateOpt_of_incomplete sr] at h
    cases h
    rfl

theorem sample_rate_append_of_rest_ne {s r lit : List Char}
    (h : sample_rate s = .done r lit) (hr : r ≠ []) (t : List Char) :
    sample_rate (s ++ t) = .done (r ++ t) lit := by
  unfold sample_rate at h ⊢
  cases e1 : tagP ['|', '@'] s with
  | error => rw [e1, andThen_error] at h; cases h
  | incomplete => rw [e1, andThen_incomplete] at h; cases h
  | done s1 o1 =>
    rw [e1, andThen_done] at h
    cases e2 : isNot ['\n'] s1 with
    | error => rw [e2, andThen_error] at h; cases h
    | incomplete => rw [e2, andThen_incomplete] at h; cases h
    | done s2 lit2 =>
      rw [e2, andThen_done] at h
      by_cases hvv : validF64 lit2 = true
      · rw [if_pos hvv] at h
        cases h
        rw [tagP_append e1 t, andThen_done, isNot_append_of_rest_ne e2 hr t,
          andThen_done, if_pos hvv]
      · rw [if_neg hvv] at h
        cases h

theorem sample_rate_eof_append {s lit : List Char}
    (h : sample_rate s = .done [] lit) (u : List Char) :
    sample_rate (s ++ '\n' :: u) = .done ('\n' :: u) lit := by
  unfold sample_rate at h ⊢
  cases e1 : tagP ['|', '@'] s with
  | error => rw [e1, andThen_error] at h; cases h
  | incomplete => rw [e1, andThen_incomplete] at h; cases h
  | done s1 o1 =>
    rw [e1, andThen_done] at h
    cases e2 : isNot ['\n'] s1 with
    | error => rw [e2, andThen_error] at h; cases h
    | incomplete => rw [e2, andThen_incomplete] at h; cases h
    | done s2 lit2 =>
      rw [e2, andThen_done] at h
      by_cases hvv : validF64 lit2 = true
      · rw [if_pos hvv] at h
        cases h
        have hlitne : lit ≠ [] := by
          intro he
          rw [he] at hvv
          rw [validF64_nil] at hvv
          cases hvv
        rw [tagP_append e1 ('\n' :: u), andThen_done,
          isNot_eof_append e2 hlitne (contains_single_self '\n') u,
          andThen_done, if_pos hvv]
      · rw [if_neg hvv] at h
        cases h

theorem rate_fail_append {s : List Char} (hs : s ≠ [])
    (h : optP (fun u => completeP (sample_rate u)) s = .done s none) :
    optP (fun u => completeP (sample_rate u)) (s ++ ['\n']) =
      .done (s ++ ['\n']) none := by
  obtain ⟨c, xs, rfl⟩ : ∃ c xs, s = c :: xs := by
    cases s with
    | nil => exact absurd rfl hs
    | cons c xs => exact ⟨c, xs, rfl⟩
  rw [List.cons_append]
  by_cases hc : c = '|'
  · subst hc
    cases xs with
    | nil => exact rate_none_pipe_snd (by decide)
    | cons d ys =>
      rw [List.cons_append]
      by_cases hd : d = '@'
      · subst hd
        have hval := rate_none_pipeat_inv h
        apply rate_none_invalid
        have hstop : notIn ['\n'] '\n' = false := by decide
        rw [(takeWhile_append_stop hstop ys []).1]
        exact hval
      · exact rate_none_pipe_snd hd
  · exact rate_none_head hc

/-- Appending one newline to a successfully parsed single metric leaves the
parse unchanged and appends the newline to the leftover, provided either the
leftover is non-empty or the consumed text does not end in the pipe of an
empty discriminator token. -/
theorem statsd_metric_append_nl {s r : List Char} {m : Metric}
    (h : statsd_metric s = .done r m)
    (hcond : r ≠ [] ∨ s.getLast? ≠ some '|') :
    statsd_metric (s ++ ['\n']) = .done (r ++ ['\n']) m := by
  unfold statsd_metric at h ⊢
  cases e1 : isNot [':'] s with
  | error => rw [e1, andThen_error] at h; cases h
  | incomplete => rw [e1, andThen_incomplete] at h; cases h
  | done s1 nm =>
    rw [e1, andThen_done] at h
    cases e2 : tagP [':'] s1 with
    | error => rw [e2, andThen_error] at h; cases h
    | incomplete => rw [e2, andThen_incomplete] at h; cases h
    | done s2 o2 =>
      rw [e2, andThen_done] at h
      cases e3 : isNot ['|'] s2 with
      | error => rw [e3, andThen_error] at h; cases h
      | incomplete => rw [e3, andThen_incomplete] at h; cases h
      | done s3 v =>
        rw [e3, andThen_done] at h
        cases e4 : tagP ['|'] s3 with
        | error => rw [e4, andThen_error] at h; cases h
        | incomplete => rw [e4, andThen_incomplete] at h; cases h
        | done s4 o4 =>
          rw [e4, andThen_done] at h
          cases e5 : alphanumericP s4 with
          | error => rw [e5, andThen_error] at h; cases h
          | incomplete => rw [e5, andThen_incomplete] at h; cases h
          | done s5 tou =>
            rw [e5, andThen_done] at h
            have h2 : s1 = [':'] ++ s2 := (tagP_eq_done e2).2
            have h4 : s3 = ['|'] ++ s4 := (tagP_eq_done e4).2
            have e1' : isNot [':'] (s ++ ['\n']) = .done (s1 ++ ['\n']) nm :=
              isNot_append_of_rest_ne e1 (by rw [h2]; simp) ['\n']
            have e3' : isNot ['|'] (s2 ++ ['\n']) = .done (s3 ++ ['\n']) v :=
              isNot_append_of_rest_ne e3 (by rw [h4]; simp) ['\n']
            rw [e1', andThen_done, tagP_append e2 ['\n'], andThen_done, e3',
              andThen_done, tagP_append e4 ['\n'], andThen_done]
            cases e6 : optP (fun u => completeP (sample_rate u)) s5 with
            | error => rw [e6, andThen_error] at h; cases h
            | incomplete => rw [e6, andThen_incomplete] at h; cases h
            | done s6 rate =>
              rw [e6, andThen_done] at h
              cases h
              cases rate with
              | some lit =>
                have sr := rateOpt_some_inv e6
                have hs5 : s5 ≠ [] := by
                  intro he
                  have hnil : sample_rate ([] : List Char) = .incomplete := rfl
                  rw [he, hnil] at sr
                  cases sr
                rw [alphanumericP_append_of_rest_ne e5 hs5 ['\n'], andThen_done]
                by_cases hr : r = []
                · subst hr
                  rw [rateOpt_of_done (sample_rate_eof_append sr []), andThen_done]
                  rfl
                · rw [rateOpt_of_done (sample_rate_append_of_rest_ne sr hr ['\n']),
                    andThen_done]
              | none =>
                have h6 : r = s5 := rateOpt_none_inv e6
                by_cases hs5 : s5 = []
                · subst hs5
                  subst h6
                  have hlast : s.getLast? ≠ some '|' :=
                    hcond.resolve_left (fun hh => hh rfl)
                  by_cases htou : tou = []
                  · subst htou
                    obtain ⟨hs4, -⟩ := alphanumericP_out_nil e5
                    have h1 : s = nm ++ s1 := (isNot_done_inv e1).1
                    have h3 : s2 = v ++ s3 := (isNot_done_inv e3).1
                    have hshape : s = (nm ++ [':'] ++ v) ++ ['|'] := by
                      rw [h1, h2, h3, h4, hs4]
                      simp [List.append_assoc]
                    rw [hshape, List.getLast?_concat] at hlast
                    exact absurd rfl hlast
                  · rw [alphanumericP_eof_append e5 htou (by decide) [], andThen_done]
                    rw [rate_none_head (by decide), andThen_done]
                    rfl
                · rw [h6] at e6 ⊢
                  rw [alphanumericP_append_of_rest_ne e5 hs5 ['\n'], andThen_done]
                  rw [rate_fail_append hs5 e6, andThen_done]

theorem statsdElem_parts {s i : List Char} {o : Metric}
    (h : statsdElem s = .done i o) :
    ∃ rm oo, statsd_metric s = .done rm o ∧
      optP (fun u => completeP (tagP ['\n'] u)) rm = .done i oo := by
  unfold statsdElem at h
  cases e1 : statsd_metric s with
  | error => rw [e1, andThen_error] at h; cases h
  | incomplete => rw [e1, andThen_incomplete] at h; cases h
  | done r1 m1 =>
    rw [e1, andThen_done] at h
    cases e2 : optP (fun u => completeP (tagP ['\n'] u)) r1 with
    | error => rw [e2, andThen_error] at h; cases h
    | incomplete => rw [e2, andThen_incomplete] at h; cases h
    | done r2 o2 =>
      rw [e2, andThen_done] at h
      cases h
      exact ⟨r1, o2, rfl, e2⟩

theorem optNl_done_nil_inv {rm : List Char} {oo : Option (List Char)}
    (h : optP (fun u => completeP (tagP ['\n'] u)) rm = .done [] oo) :
    rm = [] ∨ rm = ['\n'] := by
  cases t : tagP ['\n'] rm with
  | done X o' =>
    rw [optNl_of_done t] at h
    cases h
    obtain ⟨-, hs⟩ := tagP_eq_done t
    rw [List.append_nil] at hs
    exact Or.inr hs
  | error =>
    rw [optNl_of_error t] at h
    cases h
    exact Or.inl rfl
  | incomplete =>
    rw [optNl_of_incomplete t] at h
    cases h
    exact Or.inl rfl

/-- Appending one newline after a successful element parse: if the element
left nothing, the appended newline is consumed by the optional newline tag of
the same element; otherwise the newline is appended to the leftover. -/
theorem statsdElem_append_nl {s i : List Char} {o : Metric}
    (e : statsdElem s = .done i o)
    (hl1 : s.getLast? ≠ some '\n') (hl2 : s.getLast? ≠ some '|') :
    statsdElem (s ++ ['\n']) = .done (if i = [] then [] else i ++ ['\n']) o := by
  obtain ⟨rm, oo, hm, hopt⟩ := statsdElem_parts e
  by_cases hi : i = []
  · subst hi
    show statsdElem (s ++ ['\n']) = .done [] o
    rcases optNl_done_nil_inv hopt with hrm | hrm
    · subst hrm
      have hm' := statsd_metric_append_nl hm (Or.inr hl2)
      rw [List.nil_append] at hm'
      unfold statsdElem
      rw [hm', andThen_done, optNl_cons [], andThen_done]
    · subst hrm
      obtain ⟨p, hp⟩ := statsd_metric_suffix hm
      rw [hp, List.getLast?_concat] at hl1
      exact absurd rfl hl1
  · rw [if_neg hi]
    obtain ⟨q, hq⟩ := optNl_suffix hopt
    have hrm : rm ≠ [] := by
      rw [hq]
      intro hh
      exact hi (List.append_eq_nil.mp hh).2
    have hm' := statsd_metric_append_nl hm (Or.inl hrm)
    obtain ⟨d, rm', rfl⟩ : ∃ d rm', rm = d :: rm' := by
      cases rm with
      | nil => exact absurd rfl hrm
      | cons d rm' => exact ⟨d, rm', rfl⟩
    rw [List.cons_append] at hm'
    by_cases hd : d = '\n'
    · subst hd
      rw [optNl_cons rm'] at hopt
      cases hopt
      unfold statsdElem
      rw [hm', andThen_done, optNl_cons (i ++ ['\n']), andThen_done]
    · rw [optNl_head_ne hd] at hopt
      cases hopt
      unfold statsdElem
      rw [hm', andThen_done, optNl_head_ne hd, andThen_done, List.cons_append]

/-- Appending one newline to a fully consumed loop run preserves the result,
provided the remaining input does not end in a newline or a pipe. -/
theorem statsdLoopN_append_nl :
    ∀ {fuel : Nat} {v : List Char} {acc ms : List Metric},
      v.length ≤ fuel → v ≠ [] →
      v.getLast? ≠ some '\n' → v.getLast? ≠ some '|' →
      statsdLoopN fuel v acc = .done [] ms →
      statsdLoopN (fuel + 1) (v ++ ['\n']) acc = .done [] ms := by
  intro fuel
  induction fuel with
  | zero =>
    intro v acc ms hle hne _ _ _
    cases v with
    | nil => exact absurd rfl hne
    | cons c v' => simp at hle
  | succ fuel ih =>
    intro v acc ms hle hne hl1 hl2 h
    obtain ⟨c, v', rfl⟩ : ∃ c v', v = c :: v' := by
      cases v with
      | nil => exact absurd rfl hne
      | cons c v' => exact ⟨c, v', rfl⟩
    cases e : statsdElem (c :: v') with
    | error =>
      rw [statsdLoopN_error_step fuel acc e] at h
      cases h
    | incomplete =>
      rw [statsdLoopN_incomplete_step fuel acc e] at h
      cases h
    | done i o =>
      rw [statsdLoopN_done_step fuel acc e] at h
      have hel := statsdElem_append_nl e hl1 hl2
      by_cases hlen : i.length = (c :: v').length
      · rw [if_pos hlen] at h
        cases h
      · rw [if_neg hlen] at h
        by_cases hi : i = []
        · subst hi
          rw [statsdLoopN_nil] at h
          cases h
          rw [if_pos rfl] at hel
          rw [List.cons_append] at hel ⊢
          rw [statsdLoopN_done_step (fuel + 1) acc hel, if_neg (by simp),
            statsdLoopN_nil]
        · rw [if_neg hi] at hel
          rw [List.cons_append] at hel ⊢
          rw [statsdLoopN_done_step (fuel + 1) acc hel]
          rw [if_neg (by
            intro hcontra
            apply hlen
            simp only [List.length_append, List.length_cons, List.length_nil] at hcontra
            simp only [List.length_cons]
            omega)]
          have hcons := statsdElem_length_le e
          obtain ⟨p, hp⟩ := statsdElem_suffix e
          have hli : i.getLast? = (c :: v').getLast? := by
            rw [hp]
            exact (getLast?_append_of_ne hi).symm
          apply ih ?_ hi (by rw [hli]; exact hl1) (by rw [hli]; exact hl2) h
          rw [List.length_cons] at hcons hle hlen
          omega

/-- Appending one newline to a successfully and fully parsed batch preserves
the result, provided the batch does not already end in a newline and its last
discriminator token is not empty, that is, the buffer does not end in a pipe. -/
theorem statsd_append_nl {s : List Char} {ms : List Metric}
    (h : statsd s = .done [] ms)
    (hl1 : s.getLast? ≠ some '\n') (hl2 : s.getLast? ≠ some '|') :
    statsd (s ++ ['\n']) = .done [] ms := by
  unfold statsd at h
  split at h
  · cases h
  · cases h
  · rename_i i1 o1 e
    have hel := statsdElem_append_nl e hl1 hl2
    split at h
    · rename_i hi1
      cases h
      subst hi1
      rw [if_pos rfl] at hel
      rw [statsd_done_of_elem hel, if_pos rfl]
    · rename_i hi1
      rw [if_neg hi1] at hel
      rw [statsd_done_of_elem hel, if_neg (by simp [hi1])]
      obtain ⟨p, hp⟩ := statsdElem_suffix e
      have hli : i1.getLast? = s.getLast? := by
        rw [hp]
        exact (getLast?_append_of_ne hi1).symm
      have hlength : (i1 ++ ['\n']).length = i1.length + 1 := by simp
      rw [hlength]
      exact statsdLoopN_append_nl (Nat.le_refl _) hi1
        (by rw [hli]; exact hl1) (by rw [hli]; exact hl2) h

/-- C7 amended: appending one trailing newline to a successfully parsed batch
preserves the result, provided the batch does not already end in a newline
(otherwise a trailing blank line arises) and does not end in a pipe
(otherwise the trailing empty discriminator token is no longer at end of
input and alphanumeric rejects the appended newline); the concrete
trailing-newline example parses to the same single record either way. -/
theorem c7_amended_trailing_newline :
    (∀ s ms, statsd s = .done [] ms → s.getLast? ≠ some '\n' →
      s.getLast? ≠ some '|' → statsd (s ++ ['\n']) = .done [] ms) ∧
    (statsd ("gorets:1|c\n".toList) =
        .done [] [{ name := "gorets".toList, value := "1".toList,
                    metric_type := MetricType.Counter, unit := none,
                    sample_rate := none }] ∧
      statsd ("gorets:1|c".toList) =
        .done [] [{ name := "gorets".toList, value := "1".toList,
                    metric_type := MetricType.Counter, unit := none,
                    sample_rate := none }]) := by
  exact ⟨fun s ms h h1 h2 => statsd_append_nl h h1 h2, by decide, by decide⟩

/-- Witness for C7 amended at a concrete batch. -/
theorem c7_witness :
    statsd ("a:1|c".toList ++ ['\n']) =
      .done [] [{ name := "a".toList, value := "1".toList,
                  metric_type := MetricType.Counter, unit := none,
                  sample_rate := none }] :=
  c7_amended_trailing_newline.1 ("a:1|c".toList)
    [{ name := "a".toList, value := "1".toList, metric_type := MetricType.Counter,
       unit := none, sample_rate := none }] (by decide) (by decide) (by decide)

/-- The fuel of statsdLoopN is bookkeeping only: any two fuels at least the
length of the input give the same result, every iteration consuming at least
one character. statsd always passes the length of the remaining input. -/
theorem statsdLoopN_fuel_irrelevant :
    ∀ {f1 f2 : Nat} {input : List Char} {acc : List Metric},
      input.length ≤ f1 → input.length ≤ f2 →
      statsdLoopN f1 input acc = statsdLoopN f2 input acc := by
  intro f1
  induction f1 with
  | zero =>
    intro f2 input acc h1 h2
    have hnil : input = [] := List.eq_nil_of_length_eq_zero (Nat.le_zero.mp h1)
    subst hnil
    rw [statsdLoopN_nil, statsdLoopN_nil]
  | succ g1 ih =>
    intro f2 input acc h1 h2
    cases input with
    | nil => rw [statsdLoopN_nil, statsdLoopN_nil]
    | cons c input' =>
      cases f2 with
      | zero => simp at h2
      | succ g2 =>
        cases e : statsdElem (c :: input') with
        | error =>
          rw [statsdLoopN_error_step g1 acc e, statsdLoopN_error_step g2 acc e]
        | incomplete =>
          rw [statsdLoopN_incomplete_step g1 acc e,
            statsdLoopN_incomplete_step g2 acc e]
        | done i o =>
          rw [statsdLoopN_done_step g1 acc e, statsdLoopN_done_step g2 acc e]
          by_cases hlen : i.length = (c :: input').length
          · rw [if_pos hlen, if_pos hlen]
          · rw [if_neg hlen, if_neg hlen]
            have hlt : i.length < (c :: input').length :=
              lt_of_le_of_ne (statsdElem_length_le e) hlen
            rw [List.length_cons] at h1 h2 hlt
            exact ih (by omega) (by omega)

/-! Strict consumption: a successful element parse always consumes at least
the name, the colon, and the pipe, so the loop advances strictly. -/

theorem statsdElem_nil : statsdElem ([] : List Char) = .incomplete := rfl

theorem statsd_metric_length_lt {s r : List Char} {m : Metric}
    (h : statsd_metric s = .done r m) : r.length < s.length := by
  unfold statsd_metric at h
  cases e1 : isNot [':'] s with
  | error => rw [e1, andThen_error] at h; cases h
  | incomplete => rw [e1, andThen_incomplete] at h; cases h
  | done s1 nm =>
    rw [e1, andThen_done] at h
    cases e2 : tagP [':'] s1 with
    | error => rw [e2, andThen_error] at h; cases h
    | incomplete => rw [e2, andThen_incomplete] at h; cases h
    | done s2 o2 =>
      rw [e2, andThen_done] at h
      cases e3 : isNot ['|'] s2 with
      | error => rw [e3, andThen_error] at h; cases h
      | incomplete => rw [e3, andThen_incomplete] at h; cases h
      | done s3 v =>
        rw [e3, andThen_done] at h
        cases e4 : tagP ['|'] s3 with
        | error => rw [e4, andThen_error] at h; cases h
        | incomplete => rw [e4, andThen_incomplete] at h; cases h
        | done s4 o4 =>
          rw [e4, andThen_done] at h
          cases e5 : alphanumericP s4 with
          | error => rw [e5, andThen_error] at h; cases h
          | incomplete => rw [e5, andThen_incomplete] at h; cases h
          | done s5 tou =>
            rw [e5, andThen_done] at h
            cases e6 : optP (fun u => completeP (sample_rate u)) s5 with
            | error => rw [e6, andThen_error] at h; cases h
            | incomplete => rw [e6, andThen_incomplete] at h; cases h
            | done s6 rate =>
              rw [e6, andThen_done] at h
              cases h
              obtain ⟨p6, hp6⟩ := rateOpt_suffix e6
              have l1 : s.length = nm.length + s1.length := by
                rw [(isNot_done_inv e1).1, List.length_append]
              have l2 : s1.length = s2.length + 1 := by
                rw [(tagP_eq_done e2).2]
                simp
              have l3 : s2.length = v.length + s3.length := by
                rw [(isNot_done_inv e3).1, List.length_append]
              have l4 : s3.length = s4.length + 1 := by
                rw [(tagP_eq_done e4).2]
                simp
              have l5 : s4.length = tou.length + s5.length := by
                rw [(alphanumericP_done_inv e5).1, List.length_append]
              have l6 : s5.length = p6.length + r.length := by
                rw [hp6, List.length_append]
              omega

theorem statsdElem_length_lt {s i : List Char} {o : Metric}
    (h : statsdElem s = .done i o) : i.length < s.length := by
  obtain ⟨rm, oo, hm, hopt⟩ := statsdElem_parts h
  have h1 := statsd_metric_length_lt hm
  obtain ⟨q, hq⟩ := optNl_suffix hopt
  have h2 : i.length ≤ rm.length := by
    rw [hq]
    simp
  omega

/-! When an element trace ends at a position where the element parser fails,
the loop stops there: an Error returns the collected records with the rest
unconsumed, an Incomplete is propagated and fails the whole call. -/

theorem statsdLoopN_stop_error :
    ∀ {fuel : Nat} {v r : List Char} {acc ms' : List Metric},
      v.length ≤ fuel → ElemTrace v r ms' → statsdElem r = .error →
      statsdLoopN fuel v acc = .done r (acc ++ ms') := by
  intro fuel
  induction fuel with
  | zero =>
    intro v r acc ms' hle ht he
    cases ht with
    | nil =>
      cases v with
      | nil => rw [statsdElem_nil] at he; cases he
      | cons c r' => simp at hle
    | cons hstep htail =>
      have hlt := statsdElem_length_lt hstep
      omega
  | succ fuel ih =>
    intro v r acc ms' hle ht he
    cases ht with
    | nil =>
      rw [List.append_nil]
      cases v with
      | nil => rw [statsdElem_nil] at he; cases he
      | cons c r' => exact statsdLoopN_error_step fuel acc he
    | cons hstep htail =>
      rename_i s' m ms2
      obtain ⟨c, v', rfl⟩ : ∃ c v', v = c :: v' := by
        cases v with
        | nil => rw [statsdElem_nil] at hstep; cases hstep
        | cons c v' => exact ⟨c, v', rfl⟩
      have hlt := statsdElem_length_lt hstep
      rw [statsdLoopN_done_step fuel acc hstep, if_neg (by omega)]
      rw [ih (by omega) htail he, List.append_assoc]
      rfl

theorem statsdLoopN_stop_incomplete :
    ∀ {fuel : Nat} {v r : List Char} {acc ms' : List Metric},
      v.length ≤ fuel → ElemTrace v r ms' → r ≠ [] →
      statsdElem r = .incomplete → statsdLoopN fuel v acc = .incomplete := by
  intro fuel
  induction fuel with
  | zero =>
    intro v r acc ms' hle ht hr he
    cases ht with
    | nil =>
      cases v with
      | nil => exact absurd rfl hr
      | cons c r' => simp at hle
    | cons hstep htail =>
      have hlt := statsdElem_length_lt hstep
      omega
  | succ fuel ih =>
    intro v r acc ms' hle ht hr he
    cases ht with
    | nil =>
      cases v with
      | nil => exact absurd rfl hr
      | cons c r' => exact statsdLoopN_incomplete_step fuel acc he
    | cons hstep htail =>
      rename_i s' m ms2
      obtain ⟨c, v', rfl⟩ : ∃ c v', v = c :: v' := by
        cases v with
        | nil => rw [statsdElem_nil] at hstep; cases hstep
        | cons c v' => exact ⟨c, v', rfl⟩
      have hlt := statsdElem_length_lt hstep
      rw [statsdLoopN_done_step fuel acc hstep, if_neg (by omega)]
      exact ih (by omega) htail hr he

theorem statsd_stops_at_error {s r : List Char} {ms : List Metric}
    (ht : ElemTrace s r ms) (hms : ms ≠ []) (he : statsdElem r = .error) :
    statsd s = .done r ms := by
  cases ht with
  | nil => exact absurd rfl hms
  | cons hstep htail =>
    rename_i s' m ms2
    rw [statsd_done_of_elem hstep]
    by_cases hs' : s' = []
    · subst hs'
      cases htail with
      | nil => rw [statsdElem_nil] at he; cases he
      | cons hstep2 _ => rw [statsdElem_nil] at hstep2; cases hstep2
    · rw [if_neg hs', statsdLoopN_stop_error (Nat.le_refl _) htail he]
      rfl

theorem statsd_propagates_incomplete {s r : List Char} {ms : List Metric}
    (ht : ElemTrace s r ms) (hr : r ≠ []) (he : statsdElem r = .incomplete) :
    statsd s = .incomplete := by
  cases ht with
  | nil => exact statsd_incomplete_of_elem he
  | cons hstep htail =>
    rename_i s' m ms2
    rw [statsd_done_of_elem hstep]
    by_cases hs' : s' = []
    · subst hs'
      cases htail with
      | nil => exact absurd rfl hr
      | cons hstep2 _ => rw [statsdElem_nil] at hstep2; cases hstep2
    · rw [if_neg hs']
      exact statsdLoopN_stop_incomplete (Nat.le_refl _) htail hr he

/-- C4 amended: a batch with a malformed line does not always fail as a
whole. A batch whose first line is malformed fails; when a later position
fails the element grammar with an outright Error after at least one parsed
record, many1! stops there and the batch succeeds, handing the parsed prefix
of records to the caller with the malformed tail unconsumed; only when the
offending position makes the element parser report Incomplete (a truncated
line, for example one missing its colon or pipe) does the whole batch fail,
with Incomplete and no prefix returned, as the concrete batch with the
truncated second line x shows. -/
theorem c4_amended_prefix_returned :
    (∀ s, statsd_metric s = .error → statsd s = .error) ∧
    (∀ s r ms, ElemTrace s r ms → ms ≠ [] → statsdElem r = .error →
      statsd s = .done r ms) ∧
    (∀ s r ms, ElemTrace s r ms → r ≠ [] → statsdElem r = .incomplete →
      statsd s = .incomplete) ∧
    statsd ("a:1|c\nx".toList) = .incomplete := by
  refine ⟨?_, ?_, ?_, by decide⟩
  · intro s h
    apply statsd_error_of_elem
    unfold statsdElem
    rw [h, andThen_error]
  · intro s r ms ht hms he
    exact statsd_stops_at_error ht hms he
  · intro s r ms ht hr he
    exact statsd_propagates_incomplete ht hr he

/-- Witness for C4 amended: a parsed first record followed by an Error
position is handed back as a one-record Done with the bad tail unconsumed. -/
theorem c4_witness :
    statsd ("x:2|g\n:bad".toList) =
      .done (":bad".toList)
        [{ name := "x".toList, value := "2".toList, metric_type := MetricType.Gauge,
           unit := none, sample_rate := none }] :=
  c4_amended_prefix_returned.2.1 ("x:2|g\n:bad".toList) (":bad".toList)
    [{ name := "x".toList, value := "2".toList, metric_type := MetricType.Gauge,
       unit := none, sample_rate := none }]
    (ElemTrace.cons (by decide) (ElemTrace.nil (":bad".toList)))
    (by decide) (by decide)
